import Mathlib

/-!
Shallow embedding of `scripts/ics_to_schedule.py`: a calendar-feed-to-JSON
converter.  Text is modelled as `List Char`, instants as `Int` seconds since
the Unix epoch, and the Python exceptions raised by `datetime.strptime` as
the `Except Unit` monad.  The time-zone database (`zoneinfo.ZoneInfo`) is an
external collaborator and is modelled as an abstract parameter
`tzdb : List Char → Option (Int → Int)` mapping a zone identifier to its
UTC-offset function (offset in seconds, as a function of the naive local
time); `none` models a lookup that raises.
-/

namespace ICS

/-- ASCII whitespace as stripped by Python's `str.strip()` and matched by
the regex class `\s` (the feeds at hand are ASCII; the Unicode extras of
Python's notion of whitespace are not modelled). -/
def isWs (c : Char) : Bool :=
  c = ' ' ∨ c = '\t' ∨ c = '\n' ∨ c = '\r' ∨ c = '\x0b' ∨ c = '\x0c'

/-- Drop leading whitespace (the regex `\s*`, and the left half of `strip`). -/
def dropWs (s : List Char) : List Char := s.dropWhile isWs

/-- Python `str.strip()`: drop whitespace from both ends. -/
def pyStrip (s : List Char) : List Char :=
  ((dropWs s).reverse.dropWhile isWs).reverse

/-- Python `str.upper()` restricted to ASCII case mapping. -/
def upperL (s : List Char) : List Char := s.map Char.toUpper

/-- Python `str.lower()` restricted to ASCII case mapping. -/
def lowerL (s : List Char) : List Char := s.map Char.toLower

/-- Boolean "`pat` is a leading segment of `s`". -/
def isPrefixL : List Char → List Char → Bool
  | [], _ => true
  | _ :: _, [] => false
  | a :: as, b :: bs => a = b && isPrefixL as bs

/-- Python's substring containment test `pat in s`. -/
def hasSub (pat : List Char) : List Char → Bool
  | [] => isPrefixL pat []
  | c :: rest => isPrefixL pat (c :: rest) || hasSub pat rest

/-- Python `str.replace(pat, repl)` specialised to a two-character pattern
`[a, b]`: left-to-right, non-overlapping. -/
def replace2 (a b : Char) (repl : List Char) : List Char → List Char
  | x :: y :: rest =>
      if x = a ∧ y = b then repl ++ replace2 a b repl rest
      else x :: replace2 a b repl (y :: rest)
  | s => s

/-- Normalize line endings: `text.replace("\r\n", "\n").replace("\r", "\n")`
(`unfold_ics`, first line). -/
def normEol : List Char → List Char
  | '\r' :: '\n' :: rest => '\n' :: normEol rest
  | '\r' :: rest => '\n' :: normEol rest
  | c :: rest => c :: normEol rest
  | [] => []

/-- Python `text.split("\n")`: always returns at least one piece, empty
pieces included. -/
def splitNl : List Char → List (List Char)
  | [] => [[]]
  | '\n' :: rest => [] :: splitNl rest
  | c :: rest =>
      match splitNl rest with
      | l :: ls => (c :: l) :: ls
      | [] => [[c]]

/-- Python `out[-1] += t` on a list of lines. -/
def appendToLast : List (List Char) → List Char → List (List Char)
  | [], _ => []
  | [l], t => [l ++ t]
  | l :: ls, t => l :: appendToLast ls t

/-- Does the physical line start with a space or a tab (a folded
continuation line)? -/
def isCont (line : List Char) : Bool :=
  line.head? = some ' ' || line.head? = some '\t'

/-- The accumulator loop of `unfold_ics`: skip empty lines, merge
continuation lines into the previous logical line, start new logical lines
otherwise. -/
def unfoldAux (out : List (List Char)) : List (List Char) → List (List Char)
  | [] => out
  | line :: rest =>
      if line = [] then unfoldAux out rest
      else if isCont line ∧ out ≠ [] then unfoldAux (appendToLast out line.tail) rest
      else unfoldAux (out ++ [line]) rest

/-- `unfold_ics`: normalize line endings, split into physical lines, merge
folded continuation lines into logical lines. -/
def unfold_ics (text : List Char) : List (List Char) :=
  unfoldAux [] (splitNl (normEol text))

/-- Join logical lines back into a text with `"\n"` separators (used to
state idempotence of unfolding). -/
def joinNl : List (List Char) → List Char
  | [] => []
  | [l] => l
  | l :: ls => l ++ '\n' :: joinNl ls

/-- Split a list at the first occurrence of `c`: Python
`s.split(c, 1)` when `c` occurs.  Returns `(before, after)`. -/
def splitFirst (c : Char) : List Char → Option (List Char × List Char)
  | [] => none
  | x :: rest =>
      if x = c then some ([], rest)
      else (splitFirst c rest).map fun (l, r) => (x :: l, r)

/-- Python `s.split(c)` (unbounded): always at least one piece. -/
def splitAll (c : Char) : List Char → List (List Char)
  | [] => [[]]
  | x :: rest =>
      if x = c then [] :: splitAll c rest
      else
        match splitAll c rest with
        | l :: ls => (x :: l) :: ls
        | [] => [[x]]

/-- Parameter mappings (`dict[str, str]`): association lists with last-wins
insertion. -/
def Params := List (List Char × List Char)

/-- `params.get(k)`. -/
def pget (ps : Params) (k : List Char) : Option (List Char) :=
  match ps with
  | [] => none
  | (k', v) :: rest => if k' = k then some v else pget rest k

/-- `params[k] = v` (overwrite semantics). -/
def pset (ps : Params) (k v : List Char) : Params :=
  match ps with
  | [] => [(k, v)]
  | (k', v') :: rest => if k' = k then (k, v) :: rest else (k', v') :: pset rest k v

/-- `parse_prop`: split a logical line into property name (upper-cased),
parameter mapping, and raw value.  A line without `:` degrades to a bare
upper-cased name with empty parameters and value. -/
def parse_prop (line : List Char) : List Char × Params × List Char :=
  match splitFirst ':' line with
  | none => (upperL (pyStrip line), [], [])
  | some (left, value) =>
      match splitAll ';' left with
      | [] => ([], [], pyStrip value)
      | keyPart :: rest =>
          let params := rest.foldl (fun ps p =>
            match splitFirst '=' p with
            | some (k, v) => pset ps (upperL (pyStrip k)) (pyStrip v)
            | none => ps) []
          (upperL (pyStrip keyPart), params, pyStrip value)

/-- `unescape_ics_text`: the four exact substitutions of the source, in
source order (escaped newline forms to a space, escaped comma and semicolon
to the bare character), then strip. -/
def unescape_ics_text (s : List Char) : List Char :=
  pyStrip (replace2 '\\' ';' [';']
    (replace2 '\\' ',' [',']
      (replace2 '\\' 'N' [' ']
        (replace2 '\\' 'n' [' '] s))))

/-- The category keywords of `TYPE_PATTERNS`, in alternation order. -/
def CATS : List (List Char) :=
  ["MLB".toList, "F1".toList, "FE".toList, "BUILD".toList, "GAME".toList]

/-- Case-insensitive comparison of two characters (ASCII). -/
def ciEq (a b : Char) : Bool := a.toLower = b.toLower

/-- Strip `kw` case-insensitively from the front of `s`, returning the
rest.  Models one regex alternation branch. -/
def ciDrop : List Char → List Char → Option (List Char)
  | [], s => some s
  | _ :: _, [] => none
  | k :: ks, c :: cs => if ciEq k c then ciDrop ks cs else none

/-- Match the alternation `(MLB|F1|FE|BUILD|GAME)` case-insensitively at the
head of `s`; no keyword is a proper leading segment of another, so the
first-branch-wins order is deterministic.  Returns the upper-cased captured
group and the rest. -/
def matchCat (s : List Char) : Option (List Char × List Char) :=
  CATS.findSome? fun kw => (ciDrop kw s).map fun rest => (kw, rest)

/-- First pattern of `TYPE_PATTERNS`: a match of
the anchored, case-insensitive regex for a bracketed marker followed by
optional whitespace.  Returns the captured category (upper-cased) and the
remainder of the string after the whole match. -/
def rx1Match (s : List Char) : Option (List Char × List Char) :=
  match dropWs s with
  | '[' :: r =>
      match matchCat r with
      | some (cat, rest) =>
          match rest with
          | ']' :: r2 => some (cat, dropWs r2)
          | _ => none
      | none => none
  | _ => none

/-- Second pattern of `TYPE_PATTERNS`: the anchored, case-insensitive regex
for a category name followed by optional whitespace and a colon or pipe
delimiter, then optional whitespace. -/
def rx2Match (s : List Char) : Option (List Char × List Char) :=
  match matchCat (dropWs s) with
  | some (cat, rest) =>
      match dropWs rest with
      | c :: r2 => if c = ':' ∨ c = '|' then some (cat, dropWs r2) else none
      | [] => none
  | none => none

/-- `infer_type`: category from a leading marker (first pattern wins), else
from hashtags in the combined lower-cased summary-and-description text, else
none. -/
def infer_type (summary desc : List Char) : Option (List Char) :=
  match rx1Match (pyStrip summary) with
  | some (cat, _) => some cat
  | none =>
    match rx2Match (pyStrip summary) with
    | some (cat, _) => some cat
    | none =>
      let text := lowerL (summary ++ ' ' :: desc)
      if hasSub "#mlb".toList text then some "MLB".toList
      else if hasSub "#f1".toList text then some "F1".toList
      else if hasSub "#fe".toList text || hasSub "#formulae".toList text then some "FE".toList
      else if hasSub "#build".toList text then some "BUILD".toList
      else if hasSub "#game".toList text then some "GAME".toList
      else none

/-- `infer_note`: replay markers anywhere in the combined lower-cased text. -/
def infer_note (summary desc : List Char) : List Char :=
  let text := lowerL (summary ++ ' ' :: desc)
  if hasSub "#replay".toList text || hasSub "[replay]".toList text
      || hasSub "replay:".toList text then "Replay".toList
  else "Live".toList

/-- strip_type_prefix: strip the summary, remove at most one leading
bracketed marker (first pattern, substituted once since it is anchored),
then at most one leading delimited marker (second pattern), then strip. -/
def strip_type_prefix (summary : List Char) : List Char :=
  let s := pyStrip summary
  let s := match rx1Match s with
    | some (_, rest) => rest
    | none => s
  let s := match rx2Match s with
    | some (_, rest) => rest
    | none => s
  pyStrip s

end ICS

namespace ICS

/-! ### DateTime interpretation (`parse_dt`)

`datetime.strptime` compiles its format string to a case-insensitive regex
(one alternation per directive, tried in written order with backtracking),
takes the first match as a prefix of the input, raises if unconverted data
remains, and then validates the fields by constructing a `datetime`.  The
two formats used by the source are `%Y%m%dT%H%M%S` and `%Y%m%dT%H%M%SZ`.
The directive alternations below are those of CPython's `_strptime`
(`%Y` is exactly four digits; `%m` is `1[0-2]|0[1-9]|[1-9]`; and so on),
and the depth-first candidate lists reproduce the regex backtracking
order. -/

/-- Numeric value of an ASCII digit. -/
def digitVal (c : Char) : Nat := c.toNat - 48

/-- `%Y`: exactly four digits. -/
def pYear : List Char → List (Nat × List Char)
  | a :: b :: c :: d :: rest =>
      if a.isDigit ∧ b.isDigit ∧ c.isDigit ∧ d.isDigit then
        [(digitVal a * 1000 + digitVal b * 100 + digitVal c * 10 + digitVal d, rest)]
      else []
  | _ => []

/-- `%m`: the alternation `1[0-2]|0[1-9]|[1-9]`, candidates in preference
order. -/
def pMonth (s : List Char) : List (Nat × List Char) :=
  (match s with
   | '1' :: b :: rest =>
       if b = '0' ∨ b = '1' ∨ b = '2' then [(10 + digitVal b, rest)] else []
   | _ => []) ++
  (match s with
   | '0' :: b :: rest => if b.isDigit ∧ b ≠ '0' then [(digitVal b, rest)] else []
   | _ => []) ++
  (match s with
   | a :: rest => if a.isDigit ∧ a ≠ '0' then [(digitVal a, rest)] else []
   | [] => [])

/-- `%d`: the alternation `3[0-1]|[1-2]\d|0[1-9]|[1-9]| [1-9]` (the last
branch is CPython's space-padded day). -/
def pDay (s : List Char) : List (Nat × List Char) :=
  (match s with
   | '3' :: b :: rest => if b = '0' ∨ b = '1' then [(30 + digitVal b, rest)] else []
   | _ => []) ++
  (match s with
   | a :: b :: rest =>
       if (a = '1' ∨ a = '2') ∧ b.isDigit then [(digitVal a * 10 + digitVal b, rest)] else []
   | _ => []) ++
  (match s with
   | '0' :: b :: rest => if b.isDigit ∧ b ≠ '0' then [(digitVal b, rest)] else []
   | _ => []) ++
  (match s with
   | a :: rest => if a.isDigit ∧ a ≠ '0' then [(digitVal a, rest)] else []
   | [] => []) ++
  (match s with
   | ' ' :: b :: rest => if b.isDigit ∧ b ≠ '0' then [(digitVal b, rest)] else []
   | _ => [])

/-- `%H`: the alternation `2[0-3]|[0-1]\d|\d`. -/
def pHour (s : List Char) : List (Nat × List Char) :=
  (match s with
   | '2' :: b :: rest =>
       if b = '0' ∨ b = '1' ∨ b = '2' ∨ b = '3' then [(20 + digitVal b, rest)] else []
   | _ => []) ++
  (match s with
   | a :: b :: rest =>
       if (a = '0' ∨ a = '1') ∧ b.isDigit then [(digitVal a * 10 + digitVal b, rest)] else []
   | _ => []) ++
  (match s with
   | a :: rest => if a.isDigit then [(digitVal a, rest)] else []
   | [] => [])

/-- `%M`: the alternation `[0-5]\d|\d`. -/
def pMinute (s : List Char) : List (Nat × List Char) :=
  (match s with
   | a :: b :: rest =>
       if a.isDigit ∧ digitVal a ≤ 5 ∧ b.isDigit then
         [(digitVal a * 10 + digitVal b, rest)]
       else []
   | _ => []) ++
  (match s with
   | a :: rest => if a.isDigit then [(digitVal a, rest)] else []
   | [] => [])

/-- `%S`: the alternation `6[0-1]|[0-5]\d|\d` (leap seconds pass the regex
and are rejected when the `datetime` is constructed). -/
def pSec (s : List Char) : List (Nat × List Char) :=
  (match s with
   | '6' :: b :: rest => if b = '0' ∨ b = '1' then [(60 + digitVal b, rest)] else []
   | _ => []) ++
  (match s with
   | a :: b :: rest =>
       if a.isDigit ∧ digitVal a ≤ 5 ∧ b.isDigit then
         [(digitVal a * 10 + digitVal b, rest)]
       else []
   | _ => []) ++
  (match s with
   | a :: rest => if a.isDigit then [(digitVal a, rest)] else []
   | [] => [])

/-- A literal character of the format string, matched case-insensitively
(the compiled regex carries `re.IGNORECASE`). -/
def pLit (c : Char) (s : List Char) : List (List Char) :=
  match s with
  | x :: rest => if ciEq x c then [rest] else []
  | [] => []

/-- All prefix matches of the compiled format regex, in backtracking
preference order; the head of this list is the match `re.match` commits
to. -/
def strptimeMatches (s : List Char) (withZ : Bool) :
    List ((Nat × Nat × Nat × Nat × Nat × Nat) × List Char) :=
  (pYear s).flatMap fun (y, s) =>
  (pMonth s).flatMap fun (m, s) =>
  (pDay s).flatMap fun (d, s) =>
  (pLit 'T' s).flatMap fun s =>
  (pHour s).flatMap fun (h, s) =>
  (pMinute s).flatMap fun (mi, s) =>
  (pSec s).flatMap fun (sec, s) =>
  (if withZ then pLit 'Z' s else [s]).map fun s => ((y, m, d, h, mi, sec), s)

/-- Gregorian leap year. -/
def isLeap (y : Nat) : Bool := (y % 4 = 0 ∧ y % 100 ≠ 0) ∨ y % 400 = 0

/-- Length of a month. -/
def daysInMonth (y m : Nat) : Nat :=
  if m = 2 then (if isLeap y then 29 else 28)
  else if m = 4 ∨ m = 6 ∨ m = 9 ∨ m = 11 then 30
  else 31

/-- `datetime.strptime` for the two fixed formats: first regex match, the
whole input must be consumed ("unconverted data remains" otherwise), then
`datetime(...)` construction validates the calendar fields. -/
def strptime6 (s : List Char) (withZ : Bool) :
    Option (Nat × Nat × Nat × Nat × Nat × Nat) :=
  match (strptimeMatches s withZ).head? with
  | none => none
  | some (tup, rest) =>
      if rest = [] then
        if 1 ≤ tup.1 ∧ tup.2.2.1 ≤ daysInMonth tup.1 tup.2.1 ∧ tup.2.2.2.2.2 ≤ 59 then
          some tup
        else none
      else none

/-- Days from 1970-01-01 of a civil date (Gregorian, proleptic).  All
divisions act on non-negative operands for the years reachable here. -/
def daysFromCivil (y m d : Int) : Int :=
  let y2 := y - (if m ≤ 2 then 1 else 0)
  let era := (if 0 ≤ y2 then y2 else y2 - 399) / 400
  let yoe := y2 - era * 400
  let mp := m + (if 2 < m then -3 else 9)
  let doy := (153 * mp + 2) / 5 + d - 1
  let doe := yoe * 365 + yoe / 4 - yoe / 100 + doy
  era * 146097 + doe - 719468

/-- Civil date of a day count from 1970-01-01 (inverse of
`daysFromCivil`). -/
def civilFromDays (z : Int) : Int × Int × Int :=
  let z2 := z + 719468
  let era := (if 0 ≤ z2 then z2 else z2 - 146096) / 146097
  let doe := z2 - era * 146097
  let yoe := (doe - doe / 1460 + doe / 36524 - doe / 146096) / 365
  let y := yoe + era * 400
  let doy := doe - (365 * yoe + yoe / 4 - yoe / 100)
  let mp := (5 * doy + 2) / 153
  let d := doy - (153 * mp + 2) / 5 + 1
  let m := mp + (if mp < 10 then 3 else -9)
  (y + (if m ≤ 2 then 1 else 0), m, d)

/-- Seconds since the epoch of a civil UTC datetime. -/
def civilToEpoch (y m d h mi sec : Nat) : Int :=
  daysFromCivil (Int.ofNat y) (Int.ofNat m) (Int.ofNat d) * 86400
    + Int.ofNat h * 3600 + Int.ofNat mi * 60 + Int.ofNat sec

/-- `datetime.strptime(value, "%Y%m%dT%H%M%S")` as a naive instant (wall
clock read as UTC seconds). -/
def strptimePlain (s : List Char) : Option Int :=
  (strptime6 s false).map fun tup =>
    civilToEpoch tup.1 tup.2.1 tup.2.2.1 tup.2.2.2.1 tup.2.2.2.2.1 tup.2.2.2.2.2

/-- `datetime.strptime(value, "%Y%m%dT%H%M%SZ")` as a UTC instant. -/
def strptimeZFmt (s : List Char) : Option Int :=
  (strptime6 s true).map fun tup =>
    civilToEpoch tup.1 tup.2.1 tup.2.2.1 tup.2.2.2.1 tup.2.2.2.2.1 tup.2.2.2.2.2

/-- `parse_dt`: `.ok none` is Python's `None` (unsupported date-only
value), `.error ()` is the `ValueError` raised by `strptime`, `.ok (some t)`
is a successfully resolved UTC instant.  `tzdb` models `ZoneInfo`: `none`
is a constructor that raises (any reason), `some z` a zone whose UTC offset
at naive local time `t` is `z t` seconds, so that
`dt.replace(tzinfo=z).astimezone(timezone.utc)` is `t - z t`.  An empty
`tzid` string is falsy in Python and is treated like an absent one. -/
def parse_dt (tzdb : List Char → Option (Int → Int)) (value : List Char)
    (tzid : Option (List Char)) : Except Unit (Option Int) :=
  let v := pyStrip value
  if v.length = 8 ∧ v.all Char.isDigit then .ok none
  else if v.getLast? = some 'Z' then
    match strptimeZFmt v with
    | some t => .ok (some t)
    | none => .error ()
  else
    match strptimePlain v with
    | none => .error ()
    | some t =>
        match tzid with
        | some tz =>
            if tz ≠ [] then
              match tzdb tz with
              | some z => .ok (some (t - z t))
              | none => .ok (some t)
            else .ok (some t)
        | none => .ok (some t)

/-- ASCII digit character. -/
def digitChar (n : Nat) : Char := Char.ofNat (48 + n)

/-- Two-digit zero-padded decimal. -/
def pad2 (n : Nat) : List Char := [digitChar (n / 10 % 10), digitChar (n % 10)]

/-- Four-digit zero-padded decimal. -/
def pad4 (n : Nat) : List Char :=
  [digitChar (n / 1000 % 10), digitChar (n / 100 % 10),
   digitChar (n / 10 % 10), digitChar (n % 10)]

/-- `start.strftime("%Y-%m-%dT%H:%M:%SZ")` of a UTC instant. -/
def fmtWhen (t : Int) : List Char :=
  let days := t.ediv 86400
  let sod := (t.emod 86400).toNat
  let c := civilFromDays days
  pad4 c.1.toNat ++ '-' :: pad2 c.2.1.toNat ++ '-' :: pad2 c.2.2.toNat
    ++ 'T' :: pad2 (sod / 3600) ++ ':' :: pad2 (sod % 3600 / 60)
    ++ ':' :: pad2 (sod % 60) ++ ['Z']

end ICS

namespace ICS

/-- Default `where` display string. -/
def DEFAULT_WHERE : List Char := "Kick · Twitch · YouTube".toList

/-- A normalized event record: the output dict
`{title, when, where, type, note}` (all five fields strings). -/
structure Rec where
  title : List Char
  when : List Char
  where_ : List Char
  type_ : List Char
  note : List Char
deriving DecidableEq, Repr

/-- The per-event accumulator `ev`: most recent `(params, value)` for each
of the four recognized property names, `none` when the key is absent. -/
structure Ev where
  summary : Option (Params × List Char)
  dtstart : Option (Params × List Char)
  location : Option (Params × List Char)
  description : Option (Params × List Char)

/-- The empty accumulator `ev = {}`. -/
def emptyEv : Ev := ⟨none, none, none, none⟩

/-- Python's `not ev`: the dict is empty. -/
def evIsEmpty (ev : Ev) : Bool :=
  ev.summary.isNone && ev.dtstart.isNone && ev.location.isNone && ev.description.isNone

/-- `ev[key] = (params, value)` for a recognized key; other keys are not
stored (`if key in {...}` in the loop). -/
def storeProp (ev : Ev) (key : List Char) (pv : Params × List Char) : Ev :=
  if key = "SUMMARY".toList then { ev with summary := some pv }
  else if key = "DTSTART".toList then { ev with dtstart := some pv }
  else if key = "LOCATION".toList then { ev with location := some pv }
  else if key = "DESCRIPTION".toList then { ev with description := some pv }
  else ev

/-- `flush_event`: given the accumulator, either append one normalized
record to `items` or leave it unchanged (event discarded); a `ValueError`
escaping `parse_dt` aborts the whole computation (`.error`).  The caller
resets the accumulator afterwards. -/
def flush_event (tzdb : List Char → Option (Int → Int)) (now_utc : Int)
    (window_days : Int) (ev : Ev) (items : List Rec) : Except Unit (List Rec) :=
  if evIsEmpty ev then .ok items
  else
    let summary := unescape_ics_text (ev.summary.getD ([], [])).2
    if summary = [] then .ok items
    else
      let dtp := ev.dtstart.getD ([], [])
      let tzid := pget dtp.1 "TZID".toList
      match parse_dt tzdb dtp.2 tzid with
      | .error e => .error e
      | .ok none => .ok items
      | .ok (some start) =>
          if start < now_utc - 86400 then .ok items
          else if now_utc + window_days * 86400 < start then .ok items
          else
            let location := unescape_ics_text (ev.location.getD ([], [])).2
            let desc := unescape_ics_text (ev.description.getD ([], [])).2
            let t := infer_type summary desc
            let note := infer_note summary desc
            let title := strip_type_prefix summary
            .ok (items ++ [{ title := title, when := fmtWhen start,
                             where_ := if location = [] then DEFAULT_WHERE else location,
                             type_ := t.getD "STREAM".toList, note := note }])

/-- Assembler state: the `in_event` flag, the accumulator, and the records
produced so far. -/
structure AState where
  inEvent : Bool
  ev : Ev
  items : List Rec

/-- One iteration of the line loop of `ics_to_items`. -/
def stepLine (tzdb : List Char → Option (Int → Int)) (now_utc : Int)
    (window_days : Int) (st : AState) (rawLine : List Char) : Except Unit AState :=
  let line := pyStrip rawLine
  if line = "BEGIN:VEVENT".toList then .ok { st with inEvent := true, ev := emptyEv }
  else if line = "END:VEVENT".toList then
    if st.inEvent then
      match flush_event tzdb now_utc window_days st.ev st.items with
      | .error e => .error e
      | .ok items => .ok { inEvent := false, ev := emptyEv, items := items }
    else .ok { st with inEvent := false }
  else if st.inEvent then
    let kpv := parse_prop line
    .ok { st with ev := storeProp st.ev kpv.1 (kpv.2.1, kpv.2.2) }
  else .ok st

/-- The line loop of `ics_to_items`. -/
def processLines (tzdb : List Char → Option (Int → Int)) (now_utc : Int)
    (window_days : Int) : AState → List (List Char) → Except Unit AState
  | st, [] => .ok st
  | st, l :: ls =>
      match stepLine tzdb now_utc window_days st l with
      | .error e => .error e
      | .ok st' => processLines tzdb now_utc window_days st' ls

/-- Record comparison used by `items.sort(key=lambda x: x["when"])`:
Python compares the key strings by code point, lexicographically. -/
def listLe : List Char → List Char → Bool
  | [], _ => true
  | _ :: _, [] => false
  | a :: as, b :: bs =>
      if a.toNat < b.toNat then true
      else if a.toNat = b.toNat then listLe as bs
      else false

/-- The sort key order on records. -/
def recLe (a b : Rec) : Prop := listLe a.when b.when = true

instance : DecidableRel recLe := fun a b => by
  unfold recLe; infer_instance

/-- `items.sort(key=lambda x: x["when"])`: a stable comparison sort by the
`when` string; modelled by insertion sort (behaviourally equal on every
input up to the order of equal keys, which the program does not rely on). -/
def sortItems (items : List Rec) : List Rec := List.insertionSort recLe items

/-- `ics_to_items`: unfold, run the line loop from the initial state, sort
by `when`. -/
def ics_to_items (tzdb : List Char → Option (Int → Int)) (ics_text : List Char)
    (now_utc : Int) (window_days : Int) : Except Unit (List Rec) :=
  match processLines tzdb now_utc window_days ⟨false, emptyEv, []⟩ (unfold_ics ics_text) with
  | .error e => .error e
  | .ok st => .ok (sortItems st.items)

/-- The truncation `[: args.limit]` performed in `main`. -/
def truncItems (items : List Rec) (limit : Nat) : List Rec := items.take limit

end ICS

namespace ICS

/-- A time-zone database in which every lookup raises (no zone resolves);
events in the concrete runs below carry UTC times, so nothing depends on
it. -/
def tzdbNone : List Char → Option (Int → Int) := fun _ => none

/-- The reference instant 2025-06-01T00:00:00Z used as `now_utc` in the
concrete runs. -/
def now0 : Int := 1748736000

end ICS

open ICS

/-- Claim C1: the spec says an unrecognized `DTSTART` value makes date-time
interpretation fail with a format error "propagated so that only that
single event is discarded" while "records are still produced for all other
events".  In the code the `ValueError` raised by `datetime.strptime` inside
`parse_dt` is caught nowhere, so the whole run aborts: on a feed whose
first event has `DTSTART:garbage` and whose second event is perfectly
valid, `ics_to_items` produces an error and no records at all. -/
theorem c1_malformed_dtstart_aborts_run :
    ics_to_items tzdbNone
      ("BEGIN:VEVENT\nSUMMARY:Bad\nDTSTART:garbage\nEND:VEVENT\nBEGIN:VEVENT\nSUMMARY:Good\nDTSTART:20250601T230000Z\nEND:VEVENT\n".toList)
      now0 120 = .error () := by
  rfl

/-- Claim C2: the spec's Scenario B says an event with a non-empty
`SUMMARY` and no `DTSTART` is discarded while processing continues.  In
the code the missing `DTSTART` defaults to the empty string, and
`datetime.strptime("", "%Y%m%dT%H%M%S")` raises an uncaught `ValueError`,
so the whole run aborts: the valid second event of this feed yields no
record either. -/
theorem c2_missing_dtstart_aborts_run :
    ics_to_items tzdbNone
      ("BEGIN:VEVENT\nSUMMARY:F1: Qualifying #replay\nEND:VEVENT\nBEGIN:VEVENT\nSUMMARY:Good\nDTSTART:20250601T230000Z\nEND:VEVENT\n".toList)
      now0 120 = .error () := by
  rfl

/-- Claim C3, counterexample: the claim says every produced record has a
non-empty title with no category-marker prefix.  The summary `[MLB]`
consists of a bare marker; strip_type_prefix erases all of it and the
event is still materialized, so the run below produces a record whose
`title` is the empty string. -/
theorem c3_counterexample_empty_title :
    ¬ (∀ (items : List Rec) (r : Rec),
        ics_to_items tzdbNone
          ("BEGIN:VEVENT\nSUMMARY:[MLB]\nDTSTART:20250601T230000Z\nEND:VEVENT\n".toList)
          now0 120 = .ok items → r ∈ items →
        r.title ≠ [] ∧ rx1Match r.title = none ∧ rx2Match r.title = none) := by
  intro h
  have := h [{ title := [], when := "2025-06-01T23:00:00Z".toList,
               where_ := DEFAULT_WHERE, type_ := "MLB".toList, note := "Live".toList }]
    { title := [], when := "2025-06-01T23:00:00Z".toList,
      where_ := DEFAULT_WHERE, type_ := "MLB".toList, note := "Live".toList }
    (by rfl) (by simp)
  exact this.1 rfl

/-- Claim C9: the begin/end markers are recognized only by exact,
case-sensitive comparison of the whitespace-stripped logical line.  A
lower-case `begin:vevent` or `end:vevent`, or a marker carrying parameters
(`BEGIN:VEVENT;X=1`), leaves the assembler state entirely unchanged in
every state (inside an event such a line parses to the unrecognized
property name `BEGIN`/`END` and is ignored), while the stripped exact
marker does fire the begin transition and clears the accumulator. -/
theorem c9_marker_exact_case_sensitive (tzdb : List Char → Option (Int → Int))
    (now_utc window_days : Int) (st : AState) :
    stepLine tzdb now_utc window_days st ("begin:vevent".toList) = .ok st
    ∧ stepLine tzdb now_utc window_days st ("BEGIN:VEVENT;X=1".toList) = .ok st
    ∧ stepLine tzdb now_utc window_days st ("end:vevent".toList) = .ok st
    ∧ stepLine tzdb now_utc window_days st ("  BEGIN:VEVENT ".toList)
        = .ok { st with inEvent := true, ev := emptyEv } := by
  obtain ⟨ie, ev, items⟩ := st
  cases ie <;> exact ⟨rfl, rfl, rfl, rfl⟩

/-- Claim C10: title cleanup applies the bracketed pattern once, then the
delimited pattern once, in that fixed order.  `[MLB] F1: Race` loses both
markers (title `Race`) while its category comes from the first marker only
(MLB, whatever the description says); `[MLB][F1] Race` loses only the first
bracketed marker, leaving `[F1] Race`. -/
theorem c10_sequential_marker_removal (desc : List Char) :
    strip_type_prefix ("[MLB] F1: Race".toList) = "Race".toList
    ∧ infer_type ("[MLB] F1: Race".toList) desc = some ("MLB".toList)
    ∧ strip_type_prefix ("[MLB][F1] Race".toList) = "[F1] Race".toList := by
  exact ⟨rfl, rfl, rfl⟩

/-- Claim C6: a `DTSTART` value without trailing `Z` that parses as
`YYYYMMDDTHHMMSS` wall-clock time `t` is interpreted through the supplied
time-zone identifier when it resolves (converted to UTC by subtracting the
zone's offset), and is treated as already UTC when resolution fails for any
reason or when no identifier (or a falsy empty one) is supplied; in all
cases `parse_dt` succeeds, so an event is never discarded for a time-zone
resolution failure. -/
theorem c6_wallclock_tz_fallback (tzdb : List Char → Option (Int → Int))
    (value : List Char) (t : Int)
    (h8 : ¬((pyStrip value).length = 8 ∧ (pyStrip value).all Char.isDigit = true))
    (hz : (pyStrip value).getLast? ≠ some 'Z')
    (hp : strptimePlain (pyStrip value) = some t) :
    parse_dt tzdb value none = .ok (some t)
    ∧ parse_dt tzdb value (some []) = .ok (some t)
    ∧ (∀ tz, tz ≠ [] → tzdb tz = none → parse_dt tzdb value (some tz) = .ok (some t))
    ∧ (∀ tz z, tz ≠ [] → tzdb tz = some z →
        parse_dt tzdb value (some tz) = .ok (some (t - z t))) := by
  refine ⟨?_, ?_, ?_, ?_⟩
  · simp only [parse_dt, if_neg h8, if_neg hz, hp]
  · simp only [parse_dt, if_neg h8, if_neg hz, hp]
    simp
  · intro tz htz hdb
    simp only [parse_dt, if_neg h8, if_neg hz, hp, if_pos htz, hdb]
  · intro tz z htz hdb
    simp only [parse_dt, if_neg h8, if_neg hz, hp, if_pos htz, hdb]

/-- Concrete instantiation of `c6_wallclock_tz_fallback`: the wall-clock
value `20250601T190000` (naive instant 1748804400) interpreted in a zone
resolving to UTC-4 yields 2025-06-01T23:00:00Z, yields the naive instant
unchanged under an unresolvable zone, and likewise with no zone. -/
theorem c6_wallclock_tz_fallback_witness :
    (¬((pyStrip ("20250601T190000".toList)).length = 8
        ∧ (pyStrip ("20250601T190000".toList)).all Char.isDigit = true))
    ∧ (pyStrip ("20250601T190000".toList)).getLast? ≠ some 'Z'
    ∧ strptimePlain (pyStrip ("20250601T190000".toList)) = some 1748804400
    ∧ parse_dt (fun s => if s = "America/New_York".toList then some (fun _ => -14400) else none)
        ("20250601T190000".toList) (some ("America/New_York".toList))
        = .ok (some 1748818800)
    ∧ parse_dt (fun s => if s = "America/New_York".toList then some (fun _ => -14400) else none)
        ("20250601T190000".toList) (some ("Mars/Olympus_Mons".toList))
        = .ok (some 1748804400)
    ∧ parse_dt (fun s => if s = "America/New_York".toList then some (fun _ => -14400) else none)
        ("20250601T190000".toList) none = .ok (some 1748804400) := by
  refine ⟨by decide, by decide, by rfl, ?_, ?_, ?_⟩
  · have h := (c6_wallclock_tz_fallback
      (fun s => if s = "America/New_York".toList then some (fun _ => -14400) else none)
      ("20250601T190000".toList) 1748804400 (by decide) (by decide) (by rfl)).2.2.2
    have h2 := h ("America/New_York".toList) (fun _ => -14400) (by decide) (by rfl)
    rw [h2]
    norm_num
  · have h := (c6_wallclock_tz_fallback
      (fun s => if s = "America/New_York".toList then some (fun _ => -14400) else none)
      ("20250601T190000".toList) 1748804400 (by decide) (by decide) (by rfl)).2.2.1
    exact h ("Mars/Olympus_Mons".toList) (by decide) (by rfl)
  · exact (c6_wallclock_tz_fallback
      (fun s => if s = "America/New_York".toList then some (fun _ => -14400) else none)
      ("20250601T190000".toList) 1748804400 (by decide) (by decide) (by rfl)).1

namespace ICS

/-- A two-character replacement pass leaves a string without any occurrence
of the pattern unchanged. -/
theorem replace2_eq_self (a b : Char) (repl : List Char) :
    ∀ s : List Char, hasSub [a, b] s = false → replace2 a b repl s = s
  | [], _ => rfl
  | [_], _ => rfl
  | x :: y :: rest, h => by
      have hsub : hasSub [a, b] (x :: y :: rest)
          = (isPrefixL [a, b] (x :: y :: rest) || hasSub [a, b] (y :: rest)) := rfl
      rw [hsub, Bool.or_eq_false_iff] at h
      have hpre : ¬ (x = a ∧ y = b) := by
        intro ⟨hx, hy⟩
        subst hx; subst hy
        simp [isPrefixL] at h
      have htail := replace2_eq_self a b repl (y :: rest) h.2
      show replace2 a b repl (x :: y :: rest) = x :: y :: rest
      rw [replace2, if_neg hpre, htail]

end ICS

/-- Claim C8: on any input containing none of the four escape sequences
(backslash-n, backslash-N, backslash-comma, backslash-semicolon), the text
unescaper returns the string unchanged except for stripping surrounding
whitespace. -/
theorem c8_unescape_untouched (s : List Char)
    (h1 : hasSub ['\\', 'n'] s = false) (h2 : hasSub ['\\', 'N'] s = false)
    (h3 : hasSub ['\\', ','] s = false) (h4 : hasSub ['\\', ';'] s = false) :
    unescape_ics_text s = pyStrip s := by
  unfold unescape_ics_text
  rw [replace2_eq_self '\\' 'n' [' '] s h1,
      replace2_eq_self '\\' 'N' [' '] s h2,
      replace2_eq_self '\\' ',' [','] s h3,
      replace2_eq_self '\\' ';' [';'] s h4]

/-- Concrete instantiation of `c8_unescape_untouched` on a string with no
escape sequences. -/
theorem c8_unescape_untouched_witness :
    (hasSub ['\\', 'n'] ("  F1 Qualifying, part 2  ".toList) = false
      ∧ hasSub ['\\', 'N'] ("  F1 Qualifying, part 2  ".toList) = false
      ∧ hasSub ['\\', ','] ("  F1 Qualifying, part 2  ".toList) = false
      ∧ hasSub ['\\', ';'] ("  F1 Qualifying, part 2  ".toList) = false)
    ∧ unescape_ics_text ("  F1 Qualifying, part 2  ".toList)
        = pyStrip ("  F1 Qualifying, part 2  ".toList) := by
  exact ⟨⟨by decide, by decide, by decide, by decide⟩,
    c8_unescape_untouched ("  F1 Qualifying, part 2  ".toList)
      (by decide) (by decide) (by decide) (by decide)⟩

namespace ICS

/-- The head of a `dropWhile` result never satisfies the predicate. -/
theorem dropWhile_head_not (p : Char → Bool) :
    ∀ l : List Char, l.dropWhile p = [] ∨ ∃ c t, l.dropWhile p = c :: t ∧ p c = false
  | [] => Or.inl rfl
  | c :: rest => by
      by_cases h : p c
      · rw [List.dropWhile_cons, if_pos h]
        exact dropWhile_head_not p rest
      · rw [List.dropWhile_cons, if_neg h]
        exact Or.inr ⟨c, rest, rfl, by simpa using h⟩

/-- `dropWhile` is the identity when the head fails the predicate. -/
theorem dropWhile_eq_self_of_head (p : Char → Bool) (c : Char) (t : List Char)
    (hc : p c = false) : (c :: t).dropWhile p = c :: t := by
  rw [List.dropWhile_cons, hc]
  simp

/-- `str.strip()` is idempotent. -/
theorem pyStrip_idem (s : List Char) : pyStrip (pyStrip s) = pyStrip s := by
  unfold pyStrip dropWs
  rcases dropWhile_head_not isWs s with hu | ⟨c, t, hu, hc⟩
  · rw [hu]; rfl
  · rw [hu]
    obtain ⟨pre, hpre⟩ : (c :: t).reverse.dropWhile isWs <:+ (c :: t).reverse :=
      List.dropWhile_suffix isWs
    have hw : (c :: t) = ((c :: t).reverse.dropWhile isWs).reverse ++ pre.reverse := by
      conv_lhs => rw [← List.reverse_reverse (c :: t), ← hpre]
      rw [List.reverse_append]
    rcases hdw : ((c :: t).reverse.dropWhile isWs).reverse with _ | ⟨c', t'⟩
    · simp
    · have hc' : c' = c := by
        rw [hdw] at hw
        exact (List.cons.injEq _ _ _ _ |>.mp hw.symm).1
      rw [dropWhile_eq_self_of_head isWs c' t' (hc' ▸ hc), ← hdw, List.reverse_reverse,
          List.dropWhile_idempotent, hdw]

/-- Every successful `flush_event` either leaves the record list unchanged
or appends exactly one record whose fields have the shapes built in the
source: a stripped non-empty summary put through strip_type_prefix, a
start instant inside the window rendered by `fmtWhen`, the location
fallback, the category fallback and the note. -/
theorem flush_event_ok_shape (tzdb : List Char → Option (Int → Int))
    (now_utc window_days : Int) (ev : Ev) (items items' : List Rec)
    (h : flush_event tzdb now_utc window_days ev items = .ok items') :
    items' = items ∨
    ∃ start : Int, now_utc - 86400 ≤ start ∧ start ≤ now_utc + window_days * 86400 ∧
    ∃ summary, summary ≠ ([] : List Char) ∧ pyStrip summary = summary ∧
    ∃ loc desc : List Char,
      items' = items ++ [{ title := strip_type_prefix summary, when := fmtWhen start,
                           where_ := if loc = [] then DEFAULT_WHERE else loc,
                           type_ := (infer_type summary desc).getD ("STREAM".toList),
                           note := infer_note summary desc }] := by
  simp only [flush_event] at h
  by_cases h0 : evIsEmpty ev = true
  · rw [if_pos h0] at h
    exact Or.inl (Except.ok.inj h).symm
  · rw [if_neg h0] at h
    by_cases h1 : unescape_ics_text (ev.summary.getD ([], [])).2 = []
    · rw [if_pos h1] at h
      exact Or.inl (Except.ok.inj h).symm
    · rw [if_neg h1] at h
      split at h
      · simp at h
      · exact Or.inl (Except.ok.inj h).symm
      · rename_i start hdt
        by_cases h2 : start < now_utc - 86400
        · rw [if_pos h2] at h
          exact Or.inl (Except.ok.inj h).symm
        · rw [if_neg h2] at h
          by_cases h3 : now_utc + window_days * 86400 < start
          · rw [if_pos h3] at h
            exact Or.inl (Except.ok.inj h).symm
          · rw [if_neg h3] at h
            refine Or.inr ⟨start, by omega, by omega,
              unescape_ics_text (ev.summary.getD ([], [])).2, h1, pyStrip_idem _,
              unescape_ics_text (ev.location.getD ([], [])).2,
              unescape_ics_text (ev.description.getD ([], [])).2,
              (Except.ok.inj h).symm⟩

/-- A successful `stepLine` either leaves the record list unchanged or its
records are a successful flush of the incoming state. -/
theorem stepLine_ok_items (tzdb : List Char → Option (Int → Int))
    (now_utc window_days : Int) (st : AState) (l : List Char) (st' : AState)
    (h : stepLine tzdb now_utc window_days st l = .ok st') :
    st'.items = st.items
    ∨ flush_event tzdb now_utc window_days st.ev st.items = .ok st'.items := by
  simp only [stepLine] at h
  by_cases hb : pyStrip l = "BEGIN:VEVENT".toList
  · rw [if_pos hb] at h
    exact Or.inl (by rw [← Except.ok.inj h])
  · rw [if_neg hb] at h
    by_cases he : pyStrip l = "END:VEVENT".toList
    · rw [if_pos he] at h
      by_cases hie : st.inEvent = true
      · rw [if_pos hie] at h
        cases hfl : flush_event tzdb now_utc window_days st.ev st.items with
        | error e => rw [hfl] at h; simp at h
        | ok its =>
            rw [hfl] at h
            simp only [Except.ok.injEq] at h
            subst h
            right
            simp only [AState.items]
      · rw [if_neg hie] at h
        exact Or.inl (by rw [← Except.ok.inj h])
    · rw [if_neg he] at h
      by_cases hie : st.inEvent = true
      · rw [if_pos hie] at h
        exact Or.inl (by rw [← Except.ok.inj h])
      · rw [if_neg hie] at h
        exact Or.inl (by rw [← Except.ok.inj h])

/-- A successful `stepLine` preserves any predicate that holds of all
accumulated records and is preserved by `flush_event`. -/
theorem stepLine_ok_inv (P : Rec → Prop) (tzdb : List Char → Option (Int → Int))
    (now_utc window_days : Int) (st : AState) (l : List Char) (st' : AState)
    (h : stepLine tzdb now_utc window_days st l = .ok st')
    (hinv : ∀ r ∈ st.items, P r)
    (hkeep : ∀ ev items items', flush_event tzdb now_utc window_days ev items = .ok items' →
      (∀ r ∈ items, P r) → ∀ r ∈ items', P r) :
    ∀ r ∈ st'.items, P r := by
  rcases stepLine_ok_items tzdb now_utc window_days st l st' h with heq | hfl
  · rw [heq]; exact hinv
  · exact hkeep st.ev st.items st'.items hfl hinv

/-- The whole line loop preserves such predicates. -/
theorem processLines_ok_inv (P : Rec → Prop) (tzdb : List Char → Option (Int → Int))
    (now_utc window_days : Int)
    (hkeep : ∀ ev items items', flush_event tzdb now_utc window_days ev items = .ok items' →
      (∀ r ∈ items, P r) → ∀ r ∈ items', P r) :
    ∀ (lines : List (List Char)) (st st' : AState),
      processLines tzdb now_utc window_days st lines = .ok st' →
      (∀ r ∈ st.items, P r) → ∀ r ∈ st'.items, P r
  | [], st, st', h, hinv => by
      have h' : Except.ok st = Except.ok st' := h
      rw [← Except.ok.inj h']
      exact hinv
  | l :: ls, st, st', h, hinv => by
      simp only [processLines] at h
      cases hstep : stepLine tzdb now_utc window_days st l with
      | error e => rw [hstep] at h; simp at h
      | ok st1 =>
          rw [hstep] at h
          exact processLines_ok_inv P tzdb now_utc window_days hkeep ls st1 st' h
            (stepLine_ok_inv P tzdb now_utc window_days st l st1 hstep hinv hkeep)

/-- Records of a successful `ics_to_items` run satisfy any predicate
preserved by `flush_event` (the initial record list is empty and the final
sort permutes). -/
theorem ics_to_items_ok_inv (P : Rec → Prop) (tzdb : List Char → Option (Int → Int))
    (text : List Char) (now_utc window_days : Int) (items : List Rec)
    (h : ics_to_items tzdb text now_utc window_days = .ok items)
    (hkeep : ∀ ev its its', flush_event tzdb now_utc window_days ev its = .ok its' →
      (∀ r ∈ its, P r) → ∀ r ∈ its', P r) :
    ∀ r ∈ items, P r := by
  unfold ics_to_items at h
  cases hpl : processLines tzdb now_utc window_days ⟨false, emptyEv, []⟩ (unfold_ics text) with
  | error e => rw [hpl] at h; simp at h
  | ok st =>
      rw [hpl] at h
      intro r hr
      rw [← Except.ok.inj h] at hr
      have hr' : r ∈ st.items := (List.perm_insertionSort recLe st.items).mem_iff.mp hr
      exact processLines_ok_inv P tzdb now_utc window_days hkeep
        (unfold_ics text) ⟨false, emptyEv, []⟩ st hpl (by simp) r hr'

end ICS

namespace ICS

/-- The key comparison is total (as Python string comparison is). -/
theorem listLe_total : ∀ a b : List Char, listLe a b = true ∨ listLe b a = true
  | [], _ => Or.inl rfl
  | _ :: _, [] => Or.inr rfl
  | a :: as, b :: bs => by
      simp only [listLe]
      rcases Nat.lt_trichotomy a.toNat b.toNat with h | h | h
      · left; rw [if_pos h]
      · rw [if_neg (by omega), if_pos h, if_neg (by omega), if_pos h.symm]
        exact listLe_total as bs
      · right; rw [if_pos h]

/-- The key comparison is transitive. -/
theorem listLe_trans : ∀ a b c : List Char,
    listLe a b = true → listLe b c = true → listLe a c = true
  | [], _, _, _, _ => rfl
  | _ :: _, [], _, hab, _ => by simp [listLe] at hab
  | _ :: _, _ :: _, [], _, hbc => by simp [listLe] at hbc
  | a :: as, b :: bs, c :: cs, hab, hbc => by
      simp only [listLe] at hab hbc ⊢
      by_cases h1 : a.toNat < b.toNat
      · by_cases h2 : b.toNat < c.toNat
        · rw [if_pos (by omega)]
        · rw [if_neg h2] at hbc
          by_cases h3 : b.toNat = c.toNat
          · rw [if_pos (by omega)]
          · rw [if_neg h3] at hbc
            exact absurd hbc (by simp)
      · rw [if_neg h1] at hab
        by_cases h4 : a.toNat = b.toNat
        · rw [if_pos h4] at hab
          by_cases h2 : b.toNat < c.toNat
          · rw [if_pos (by omega)]
          · rw [if_neg h2] at hbc
            by_cases h3 : b.toNat = c.toNat
            · rw [if_pos h3] at hbc
              rw [if_neg (by omega), if_pos (by omega)]
              exact listLe_trans as bs cs hab hbc
            · rw [if_neg h3] at hbc
              exact absurd hbc (by simp)
        · rw [if_neg h4] at hab
          exact absurd hab (by simp)

instance : IsTotal Rec recLe := ⟨fun a b => listLe_total a.when b.when⟩

instance : IsTrans Rec recLe := ⟨fun a b c => listLe_trans a.when b.when c.when⟩

end ICS

/-- Claim C4: every record of a successful run comes from a start instant
inside the retention window: no earlier than now minus one day (86400 s)
and no later than now plus the configured number of days; events outside
that range never become records (its `when` field is the rendering of such
an instant). -/
theorem c4_window_filter (tzdb : List Char → Option (Int → Int))
    (text : List Char) (now_utc window_days : Int) (items : List Rec)
    (h : ics_to_items tzdb text now_utc window_days = .ok items) :
    ∀ r ∈ items, ∃ t : Int,
      now_utc - 86400 ≤ t ∧ t ≤ now_utc + window_days * 86400 ∧ r.when = fmtWhen t := by
  refine ics_to_items_ok_inv _ tzdb text now_utc window_days items h ?_
  intro ev its its' hfl hinv r hr
  rcases flush_event_ok_shape tzdb now_utc window_days ev its its' hfl with heq | hsh
  · exact hinv r (heq ▸ hr)
  · obtain ⟨start, hlo, hhi, _, _, _, _, _, heq⟩ := hsh
    rw [heq] at hr
    rcases List.mem_append.mp hr with hr | hr
    · exact hinv r hr
    · rw [List.mem_singleton.mp hr]
      exact ⟨start, hlo, hhi, rfl⟩

/-- Concrete instantiation of `c4_window_filter`: a run at
2025-06-01T00:00:00Z with a 120-day window keeps an event 9.5 days ahead
and discards one about 200 days ahead, and the surviving record's `when`
renders an in-window instant. -/
theorem c4_window_filter_witness :
    ics_to_items tzdbNone
      ("BEGIN:VEVENT\nSUMMARY:Far\nDTSTART:20251218T230000Z\nEND:VEVENT\nBEGIN:VEVENT\nSUMMARY:Near\nDTSTART:20250610T120000Z\nEND:VEVENT\n".toList)
      now0 120
      = .ok [{ title := "Near".toList, when := "2025-06-10T12:00:00Z".toList,
               where_ := DEFAULT_WHERE, type_ := "STREAM".toList, note := "Live".toList }]
    ∧ ∃ t : Int, now0 - 86400 ≤ t ∧ t ≤ now0 + 120 * 86400 ∧
        ("2025-06-10T12:00:00Z".toList : List Char) = fmtWhen t := by
  constructor
  · rfl
  · have h := c4_window_filter tzdbNone
      ("BEGIN:VEVENT\nSUMMARY:Far\nDTSTART:20251218T230000Z\nEND:VEVENT\nBEGIN:VEVENT\nSUMMARY:Near\nDTSTART:20250610T120000Z\nEND:VEVENT\n".toList)
      now0 120
      [{ title := "Near".toList, when := "2025-06-10T12:00:00Z".toList,
         where_ := DEFAULT_WHERE, type_ := "STREAM".toList, note := "Live".toList }]
      (by rfl)
      { title := "Near".toList, when := "2025-06-10T12:00:00Z".toList,
        where_ := DEFAULT_WHERE, type_ := "STREAM".toList, note := "Live".toList }
      (by simp)
    exact h

/-- Claim C5: the output of `ics_to_items`, truncated by `main` to the
configured maximum count, is sorted in non-decreasing lexicographic order
of `when`, has exactly `min limit n` entries, and keeps the earliest
entries: every kept record's `when` is at most that of every truncated-away
record. -/
theorem c5_sorted_truncation (tzdb : List Char → Option (Int → Int))
    (text : List Char) (now_utc window_days : Int) (limit : Nat) (items : List Rec)
    (h : ics_to_items tzdb text now_utc window_days = .ok items) :
    List.Sorted recLe (truncItems items limit)
    ∧ (truncItems items limit).length = min limit items.length
    ∧ ∀ x ∈ truncItems items limit, ∀ y ∈ items.drop limit, recLe x y := by
  have hs : List.Sorted recLe items := by
    unfold ics_to_items at h
    cases hpl : processLines tzdb now_utc window_days ⟨false, emptyEv, []⟩ (unfold_ics text) with
    | error e => rw [hpl] at h; simp at h
    | ok st =>
        rw [hpl] at h
        rw [← Except.ok.inj h]
        exact List.sorted_insertionSort recLe st.items
  refine ⟨List.Pairwise.sublist (List.take_sublist limit items) hs, List.length_take limit items, ?_⟩
  have hsplit : List.Pairwise recLe (List.take limit items ++ List.drop limit items) := by
    rw [List.take_append_drop limit items]
    exact hs
  rw [List.pairwise_append] at hsplit
  intro x hx y hy
  exact hsplit.2.2 x hx y hy

namespace ICS

/-- Sample feed for the truncation run: two valid events, latest first. -/
def c5txt : List Char :=
  "BEGIN:VEVENT\nSUMMARY:Later\nDTSTART:20250620T120000Z\nEND:VEVENT\nBEGIN:VEVENT\nSUMMARY:Earlier\nDTSTART:20250605T120000Z\nEND:VEVENT\n".toList

/-- The record the sample run produces first (the earlier event). -/
def c5recA : Rec :=
  { title := "Earlier".toList, when := "2025-06-05T12:00:00Z".toList,
    where_ := DEFAULT_WHERE, type_ := "STREAM".toList, note := "Live".toList }

/-- The record the sample run produces second (the later event). -/
def c5recB : Rec :=
  { title := "Later".toList, when := "2025-06-20T12:00:00Z".toList,
    where_ := DEFAULT_WHERE, type_ := "STREAM".toList, note := "Live".toList }

end ICS

/-- Concrete instantiation of `c5_sorted_truncation`: two events arriving
latest-first, truncated to one record, keep the earlier one, sorted, with
the kept record no later than the dropped one. -/
theorem c5_sorted_truncation_witness :
    ics_to_items tzdbNone c5txt now0 120 = .ok [c5recA, c5recB]
    ∧ (List.Sorted recLe (truncItems [c5recA, c5recB] 1)
      ∧ (truncItems [c5recA, c5recB] 1).length = min 1 ([c5recA, c5recB] : List Rec).length
      ∧ ∀ x ∈ truncItems [c5recA, c5recB] 1,
          ∀ y ∈ ([c5recA, c5recB] : List Rec).drop 1, recLe x y) := by
  constructor
  · rfl
  · exact c5_sorted_truncation tzdbNone c5txt now0 120 1 [c5recA, c5recB] (by rfl)

namespace ICS

/-- strip_type_prefix is the identity on a stripped summary that matches
neither marker pattern. -/
theorem strip_marker_free (s : List Char) (hs : pyStrip s = s)
    (h1 : rx1Match s = none) (h2 : rx2Match s = none) :
    strip_type_prefix s = s := by
  simp only [ strip_type_prefix, hs, h1, h2]

end ICS

/-- Claim C3, amended: every produced record's title is the result of
applying strip_type_prefix to the event's non-empty stripped summary; in
particular, when that summary begins with no recognized category marker
the title equals the summary, hence is non-empty and marker-free — but a
summary consisting only of markers can leave an empty title, and stacked
markers can leave a residual marker. -/
theorem c3_title_from_summary (tzdb : List Char → Option (Int → Int))
    (text : List Char) (now_utc window_days : Int) (items : List Rec)
    (h : ics_to_items tzdb text now_utc window_days = .ok items) :
    ∀ r ∈ items, ∃ s : List Char, s ≠ [] ∧ pyStrip s = s
      ∧ r.title = strip_type_prefix s
      ∧ (rx1Match s = none → rx2Match s = none → r.title = s) := by
  refine ics_to_items_ok_inv _ tzdb text now_utc window_days items h ?_
  intro ev its its' hfl hinv r hr
  rcases flush_event_ok_shape tzdb now_utc window_days ev its its' hfl with heq | hsh
  · exact hinv r (heq ▸ hr)
  · obtain ⟨start, _, _, summary, hne, hstrip, loc, desc, heq⟩ := hsh
    rw [heq] at hr
    rcases List.mem_append.mp hr with hr | hr
    · exact hinv r hr
    · rw [List.mem_singleton.mp hr]
      refine ⟨summary, hne, hstrip, rfl, ?_⟩
      intro h1 h2
      exact strip_marker_free summary hstrip h1 h2

/-- Concrete instantiation of `c3_title_from_summary`: a marker-free
summary `Race Day` survives as the (non-empty) title unchanged. -/
theorem c3_title_from_summary_witness :
    ics_to_items tzdbNone
      ("BEGIN:VEVENT\nSUMMARY:Race Day\nDTSTART:20250610T120000Z\nEND:VEVENT\n".toList)
      now0 120
      = .ok [{ title := "Race Day".toList, when := "2025-06-10T12:00:00Z".toList,
               where_ := DEFAULT_WHERE, type_ := "STREAM".toList, note := "Live".toList }]
    ∧ ∃ s : List Char, s ≠ [] ∧ pyStrip s = s
      ∧ ("Race Day".toList : List Char) = strip_type_prefix s
      ∧ (rx1Match s = none → rx2Match s = none → ("Race Day".toList : List Char) = s) := by
  constructor
  · rfl
  · have h := c3_title_from_summary tzdbNone
      ("BEGIN:VEVENT\nSUMMARY:Race Day\nDTSTART:20250610T120000Z\nEND:VEVENT\n".toList)
      now0 120
      [{ title := "Race Day".toList, when := "2025-06-10T12:00:00Z".toList,
         where_ := DEFAULT_WHERE, type_ := "STREAM".toList, note := "Live".toList }]
      (by rfl)
      { title := "Race Day".toList, when := "2025-06-10T12:00:00Z".toList,
        where_ := DEFAULT_WHERE, type_ := "STREAM".toList, note := "Live".toList }
      (by simp)
    exact h

namespace ICS

/-- Line-ending normalization leaves no carriage return behind. -/
theorem normEol_not_mem_cr (s : List Char) : '\r' ∉ normEol s := by
  induction s using normEol.induct with
  | case1 rest ih =>
      rw [show normEol ('\r' :: '\n' :: rest) = '\n' :: normEol rest from rfl]
      simp only [List.mem_cons]
      rintro (h | h)
      · exact absurd h (by decide)
      · exact ih h
  | case2 rest hne ih =>
      rw [show normEol ('\r' :: rest) = '\n' :: normEol rest from by
        rw [normEol]
        exact hne]
      simp only [List.mem_cons]
      rintro (h | h)
      · exact absurd h (by decide)
      · exact ih h
  | case3 c rest hne1 hne2 ih =>
      rw [show normEol (c :: rest) = c :: normEol rest from by
        rw [normEol]
        · exact hne1
        · exact hne2]
      simp only [List.mem_cons]
      rintro (h | h)
      · exact hne2 h.symm
      · exact ih h
  | case4 => simp [normEol]

end ICS

namespace ICS

/-- Line-ending normalization is the identity on CR-free text. -/
theorem normEol_eq_self (s : List Char) (h : '\r' ∉ s) : normEol s = s := by
  induction s using normEol.induct with
  | case1 rest ih => exact absurd (List.mem_cons_self _ _) h
  | case2 rest hne ih => exact absurd (List.mem_cons_self _ _) h
  | case3 c rest hne1 hne2 ih =>
      rw [show normEol (c :: rest) = c :: normEol rest from by
        rw [normEol]
        · exact hne1
        · exact hne2]
      rw [ih (fun hm => h (List.mem_cons_of_mem c hm))]
  | case4 => rfl

/-- A newline split always has at least one piece. -/
theorem splitNl_ne_nil (s : List Char) : splitNl s ≠ [] := by
  induction s using splitNl.induct with
  | case1 => simp [splitNl]
  | case2 rest ih => simp [splitNl]
  | case3 c rest hne p ps hsp ih =>
      rw [show splitNl (c :: rest) = (c :: p) :: ps from by
        rw [splitNl]
        · rw [hsp]
        · exact hne]
      simp
  | case4 c rest hne hsp ih => exact absurd hsp ih

/-- Pieces of a newline split contain no newline. -/
theorem splitNl_no_nl (s : List Char) : ∀ l ∈ splitNl s, '\n' ∉ l := by
  induction s using splitNl.induct with
  | case1 =>
      intro l hl
      rw [show splitNl [] = [[]] from rfl] at hl
      rw [List.mem_singleton.mp hl]
      simp
  | case2 rest ih =>
      intro l hl
      rw [show splitNl ('\n' :: rest) = [] :: splitNl rest from rfl] at hl
      rcases List.mem_cons.mp hl with h | h
      · rw [h]; simp
      · exact ih l h
  | case3 c rest hne p ps hsp ih =>
      intro l hl
      rw [show splitNl (c :: rest) = (c :: p) :: ps from by
        rw [splitNl]
        · rw [hsp]
        · exact hne] at hl
      rcases List.mem_cons.mp hl with h | h
      · rw [h]
        intro hm
        rcases List.mem_cons.mp hm with h1 | h1
        · exact hne h1.symm
        · exact ih p (hsp ▸ List.mem_cons_self p ps) h1
      · exact ih l (hsp ▸ List.mem_cons_of_mem p h)
  | case4 c rest hne hsp ih =>
      intro l hl
      rw [show splitNl (c :: rest) = [[c]] from by
        rw [splitNl]
        · rw [hsp]
        · exact hne] at hl
      rw [List.mem_singleton.mp hl]
      intro hm
      exact hne (List.mem_singleton.mp hm).symm

/-- Characters of split pieces come from the split text. -/
theorem mem_of_mem_splitNl (s : List Char) :
    ∀ l ∈ splitNl s, ∀ c ∈ l, c ∈ s := by
  induction s using splitNl.induct with
  | case1 =>
      intro l hl
      rw [show splitNl [] = [[]] from rfl] at hl
      rw [List.mem_singleton.mp hl]
      intro c hc
      exact absurd hc (by simp)
  | case2 rest ih =>
      intro l hl
      rw [show splitNl ('\n' :: rest) = [] :: splitNl rest from rfl] at hl
      rcases List.mem_cons.mp hl with h | h
      · rw [h]; intro c hc; exact absurd hc (by simp)
      · intro c hc
        exact List.mem_cons_of_mem _ (ih l h c hc)
  | case3 c rest hne p ps hsp ih =>
      intro l hl
      rw [show splitNl (c :: rest) = (c :: p) :: ps from by
        rw [splitNl]
        · rw [hsp]
        · exact hne] at hl
      rcases List.mem_cons.mp hl with h | h
      · rw [h]
        intro d hd
        rcases List.mem_cons.mp hd with h1 | h1
        · rw [h1]; exact List.mem_cons_self c rest
        · exact List.mem_cons_of_mem c (ih p (hsp ▸ List.mem_cons_self p ps) d h1)
      · intro d hd
        exact List.mem_cons_of_mem c (ih l (hsp ▸ List.mem_cons_of_mem p h) d hd)
  | case4 c rest hne hsp ih =>
      intro l hl
      rw [show splitNl (c :: rest) = [[c]] from by
        rw [splitNl]
        · rw [hsp]
        · exact hne] at hl
      rw [List.mem_singleton.mp hl]
      intro d hd
      rw [List.mem_singleton.mp hd]
      exact List.mem_cons_self c rest

/-- Splitting a newline-free text yields the text as the single piece. -/
theorem splitNl_eq_single (s : List Char) (h : '\n' ∉ s) : splitNl s = [s] := by
  induction s using splitNl.induct with
  | case1 => rfl
  | case2 rest ih => exact absurd (List.mem_cons_self _ _) h
  | case3 c rest hne p ps hsp ih =>
      have ih' := ih (fun hm => h (List.mem_cons_of_mem c hm))
      have h2 : p :: ps = [rest] := hsp ▸ ih'
      rw [List.cons.injEq] at h2
      rw [show splitNl (c :: rest) = (c :: p) :: ps from by
        rw [splitNl]
        · rw [hsp]
        · exact hne]
      rw [h2.1, h2.2]
  | case4 c rest hne hsp ih =>
      have ih' := ih (fun hm => h (List.mem_cons_of_mem c hm))
      rw [ih'] at hsp
      exact absurd hsp (by simp)

/-- Splitting after appending a newline-free segment and a newline. -/
theorem splitNl_append (l r : List Char) (h : '\n' ∉ l) :
    splitNl (l ++ '\n' :: r) = l :: splitNl r := by
  induction l with
  | nil => rfl
  | cons c l' ih =>
      have hc : ¬ c = '\n' := fun hcc => h (hcc ▸ List.mem_cons_self c l')
      have ih' := ih (fun hm => h (List.mem_cons_of_mem c hm))
      rw [List.cons_append]
      cases hsp : splitNl (l' ++ '\n' :: r) with
      | nil => exact absurd hsp (splitNl_ne_nil _)
      | cons p ps =>
          rw [show splitNl (c :: (l' ++ '\n' :: r)) = (c :: p) :: ps from by
            rw [splitNl]
            · rw [hsp]
            · intro hcc; exact hc hcc]
          rw [hsp] at ih'
          rw [List.cons.injEq] at ih'
          rw [ih'.1, ih'.2]

/-- Splitting inverts joining for a non-empty family of newline-free
lines. -/
theorem splitNl_joinNl : ∀ ls : List (List Char), ls ≠ [] →
    (∀ l ∈ ls, '\n' ∉ l) → splitNl (joinNl ls) = ls
  | [], h, _ => absurd rfl h
  | [l], _, hnl => by
      rw [show joinNl [l] = l from rfl]
      exact splitNl_eq_single l (hnl l (List.mem_singleton.mpr rfl))
  | l :: l2 :: ls, _, hnl => by
      rw [show joinNl (l :: l2 :: ls) = l ++ '\n' :: joinNl (l2 :: ls) from rfl]
      rw [splitNl_append l (joinNl (l2 :: ls)) (hnl l (List.mem_cons_self _ _))]
      rw [splitNl_joinNl (l2 :: ls) (by simp)
        (fun p hp => hnl p (List.mem_cons_of_mem l hp))]

/-- A character distinct from newline that occurs in no line does not
occur in the joined text. -/
theorem not_mem_joinNl : ∀ (ls : List (List Char)) (c : Char), c ≠ '\n' →
    (∀ l ∈ ls, c ∉ l) → c ∉ joinNl ls
  | [], c, _, _ => by simp [joinNl]
  | [l], c, _, hml => by
      rw [show joinNl [l] = l from rfl]
      exact hml l (List.mem_singleton.mpr rfl)
  | l :: l2 :: ls, c, hc, hml => by
      rw [show joinNl (l :: l2 :: ls) = l ++ '\n' :: joinNl (l2 :: ls) from rfl]
      intro hm
      rcases List.mem_append.mp hm with h | h
      · exact hml l (List.mem_cons_self _ _) h
      · rcases List.mem_cons.mp h with h' | h'
        · exact hc h'
        · exact not_mem_joinNl (l2 :: ls) c hc
            (fun p hp => hml p (List.mem_cons_of_mem l hp)) h'

end ICS

namespace ICS

/-- Appending on the right does not change whether a non-empty line starts
with a continuation character. -/
theorem isCont_append (l t : List Char) (h : l ≠ []) :
    isCont (l ++ t) = isCont l := by
  cases l with
  | nil => exact absurd rfl h
  | cons c l' => rfl

/-- `appendToLast` preserves non-emptiness and newline-freeness of all
lines when the appended text is newline-free. -/
theorem appendToLast_clean : ∀ (out : List (List Char)) (t : List Char),
    (∀ l ∈ out, l ≠ [] ∧ '\n' ∉ l ∧ '\r' ∉ l) → '\n' ∉ t → '\r' ∉ t →
    ∀ l ∈ appendToLast out t, l ≠ [] ∧ '\n' ∉ l ∧ '\r' ∉ l
  | [], t, _, _, _ => by simp [appendToLast]
  | [l], t, hout, hnt, hrt => by
      intro p hp
      rw [show appendToLast [l] t = [l ++ t] from rfl] at hp
      rw [List.mem_singleton.mp hp]
      obtain ⟨h1, h2, h3⟩ := hout l (List.mem_singleton.mpr rfl)
      refine ⟨fun hh => h1 (List.append_eq_nil.mp hh).1, ?_, ?_⟩
      · intro hm
        rcases List.mem_append.mp hm with h | h
        · exact h2 h
        · exact hnt h
      · intro hm
        rcases List.mem_append.mp hm with h | h
        · exact h3 h
        · exact hrt h
  | l :: l2 :: ls, t, hout, hnt, hrt => by
      intro p hp
      rw [show appendToLast (l :: l2 :: ls) t = l :: appendToLast (l2 :: ls) t from rfl] at hp
      rcases List.mem_cons.mp hp with h | h
      · exact h ▸ hout l (List.mem_cons_self _ _)
      · exact appendToLast_clean (l2 :: ls) t
          (fun q hq => hout q (List.mem_cons_of_mem l hq)) hnt hrt p h

/-- `appendToLast` on a family of non-empty non-continuation lines yields
only non-continuation lines. -/
theorem appendToLast_cont_all : ∀ (out : List (List Char)) (t : List Char),
    (∀ l ∈ out, l ≠ [] ∧ isCont l = false) →
    ∀ l ∈ appendToLast out t, isCont l = false
  | [], t, _ => by simp [appendToLast]
  | [l], t, hout => by
      intro p hp
      rw [show appendToLast [l] t = [l ++ t] from rfl] at hp
      rw [List.mem_singleton.mp hp]
      obtain ⟨h1, h2⟩ := hout l (List.mem_singleton.mpr rfl)
      rw [isCont_append l t h1]
      exact h2
  | l :: l2 :: ls, t, hout => by
      intro p hp
      rw [show appendToLast (l :: l2 :: ls) t = l :: appendToLast (l2 :: ls) t from rfl] at hp
      rcases List.mem_cons.mp hp with h | h
      · exact h ▸ (hout l (List.mem_cons_self _ _)).2
      · exact appendToLast_cont_all (l2 :: ls) t
          (fun q hq => hout q (List.mem_cons_of_mem l hq)) p h

/-- `appendToLast` keeps all lines after the first non-continuation when
all lines are non-empty. -/
theorem appendToLast_tail_cont : ∀ (out : List (List Char)) (t : List Char),
    (∀ l ∈ out, l ≠ []) → (∀ l ∈ out.tail, isCont l = false) →
    ∀ l ∈ (appendToLast out t).tail, isCont l = false
  | [], t, _, _ => by simp [appendToLast]
  | [l], t, _, _ => by
      intro p hp
      rw [show appendToLast [l] t = [l ++ t] from rfl] at hp
      exact absurd hp (by simp)
  | l :: l2 :: ls, t, hne, htail => by
      intro p hp
      rw [show appendToLast (l :: l2 :: ls) t = l :: appendToLast (l2 :: ls) t from rfl,
          List.tail_cons] at hp
      exact appendToLast_cont_all (l2 :: ls) t
        (fun q hq => ⟨hne q (List.mem_cons_of_mem l hq), htail q hq⟩) p hp

end ICS

namespace ICS

/-- Invariant of the unfolding loop: starting from an accumulator of
non-empty, newline-free, carriage-return-free logical lines whose
non-first lines are not continuations, feeding newline-free and
carriage-return-free physical lines keeps all of that. -/
theorem unfoldAux_ok : ∀ (lines : List (List Char)) (out : List (List Char)),
    (∀ l ∈ lines, '\n' ∉ l ∧ '\r' ∉ l) →
    (∀ l ∈ out, l ≠ [] ∧ '\n' ∉ l ∧ '\r' ∉ l) →
    (∀ l ∈ out.tail, isCont l = false) →
    (∀ l ∈ unfoldAux out lines, l ≠ [] ∧ '\n' ∉ l ∧ '\r' ∉ l)
      ∧ (∀ l ∈ (unfoldAux out lines).tail, isCont l = false)
  | [], out, _, hclean, hcont => by
      rw [show unfoldAux out [] = out from rfl]
      exact ⟨hclean, hcont⟩
  | line :: rest, out, hlines, hclean, hcont => by
      by_cases h0 : line = []
      · rw [show unfoldAux out (line :: rest) = unfoldAux out rest from by
          rw [unfoldAux, if_pos h0]]
        exact unfoldAux_ok rest out
          (fun l hl => hlines l (List.mem_cons_of_mem _ hl)) hclean hcont
      · have hlt := hlines line (List.mem_cons_self _ _)
        by_cases h1 : isCont line ∧ out ≠ []
        · rw [show unfoldAux out (line :: rest)
              = unfoldAux (appendToLast out line.tail) rest from by
            rw [unfoldAux, if_neg h0, if_pos h1]]
          refine unfoldAux_ok rest (appendToLast out line.tail)
            (fun l hl => hlines l (List.mem_cons_of_mem _ hl)) ?_ ?_
          · exact appendToLast_clean out line.tail hclean
              (fun hm => hlt.1 (List.mem_of_mem_tail hm))
              (fun hm => hlt.2 (List.mem_of_mem_tail hm))
          · exact appendToLast_tail_cont out line.tail (fun q hq => (hclean q hq).1) hcont
        · rw [show unfoldAux out (line :: rest) = unfoldAux (out ++ [line]) rest from by
            rw [unfoldAux, if_neg h0, if_neg h1]]
          refine unfoldAux_ok rest (out ++ [line])
            (fun l hl => hlines l (List.mem_cons_of_mem _ hl)) ?_ ?_
          · intro l hl
            rcases List.mem_append.mp hl with h | h
            · exact hclean l h
            · rw [List.mem_singleton.mp h]
              exact ⟨h0, hlt.1, hlt.2⟩
          · cases out with
            | nil =>
                intro l hl
                rw [show (([] : List (List Char)) ++ [line]).tail = [] from rfl] at hl
                exact absurd hl (by simp)
            | cons o os =>
                intro l hl
                rw [show ((o :: os) ++ [line]).tail = os ++ [line] from rfl] at hl
                rcases List.mem_append.mp hl with h | h
                · exact hcont l h
                · rw [List.mem_singleton.mp h]
                  cases hcl : isCont line with
                  | false => rfl
                  | true => exact absurd ⟨hcl, by simp⟩ h1

/-- Feeding non-empty non-continuation lines just appends them. -/
theorem unfoldAux_fixed : ∀ (lines : List (List Char)) (out : List (List Char)),
    (∀ l ∈ lines, l ≠ [] ∧ isCont l = false) →
    unfoldAux out lines = out ++ lines
  | [], out, _ => by
      rw [show unfoldAux out [] = out from rfl, List.append_nil]
  | line :: rest, out, hl => by
      obtain ⟨h0, hc⟩ := hl line (List.mem_cons_self _ _)
      have h1 : ¬ (isCont line ∧ out ≠ []) := by
        rintro ⟨hcl, -⟩
        rw [hc] at hcl
        exact Bool.false_ne_true hcl
      rw [show unfoldAux out (line :: rest) = unfoldAux (out ++ [line]) rest from by
        rw [unfoldAux, if_neg h0, if_neg h1]]
      rw [unfoldAux_fixed rest (out ++ [line])
        (fun q hq => hl q (List.mem_cons_of_mem _ hq))]
      simp

/-- Unfolding a family of non-empty lines whose non-first lines are not
continuations returns it unchanged. -/
theorem unfoldAux_id : ∀ L : List (List Char),
    (∀ l ∈ L, l ≠ []) → (∀ l ∈ L.tail, isCont l = false) →
    unfoldAux [] L = L
  | [], _, _ => rfl
  | h :: rest, hne, hcont => by
      have h0 : h ≠ [] := hne h (List.mem_cons_self _ _)
      have h1 : ¬ (isCont h ∧ ([] : List (List Char)) ≠ []) := by
        rintro ⟨-, hh⟩
        exact hh rfl
      rw [show unfoldAux [] (h :: rest) = unfoldAux ([] ++ [h]) rest from by
        rw [unfoldAux, if_neg h0, if_neg h1]]
      rw [unfoldAux_fixed rest ([] ++ [h])
        (fun q hq => ⟨hne q (List.mem_cons_of_mem _ hq), hcont q hq⟩)]
      simp

end ICS

/-- Claim C7: unfolding is idempotent on already-unfolded text: joining
the unfolder's output lines with newlines and unfolding again yields the
same sequence of logical lines. -/
theorem c7_unfold_idempotent (text : List Char) :
    unfold_ics (joinNl (unfold_ics text)) = unfold_ics text := by
  have hlines : ∀ l ∈ splitNl (normEol text), '\n' ∉ l ∧ '\r' ∉ l := fun l hl =>
    ⟨splitNl_no_nl (normEol text) l hl,
     fun hc => normEol_not_mem_cr text (mem_of_mem_splitNl (normEol text) l hl '\r' hc)⟩
  have hok := unfoldAux_ok (splitNl (normEol text)) [] hlines (by simp) (by simp)
  have hclean : ∀ l ∈ unfold_ics text, l ≠ [] ∧ '\n' ∉ l ∧ '\r' ∉ l := hok.1
  have hcont : ∀ l ∈ (unfold_ics text).tail, isCont l = false := hok.2
  cases hL : unfold_ics text with
  | nil => rfl
  | cons h0 rest =>
      rw [← hL]
      have hnnl : ∀ l ∈ unfold_ics text, '\n' ∉ l := fun l hl => (hclean l hl).2.1
      have hnr : '\r' ∉ joinNl (unfold_ics text) :=
        not_mem_joinNl (unfold_ics text) '\r' (by decide)
          (fun l hl => (hclean l hl).2.2)
      calc unfold_ics (joinNl (unfold_ics text))
          = unfoldAux [] (splitNl (normEol (joinNl (unfold_ics text)))) := rfl
        _ = unfoldAux [] (splitNl (joinNl (unfold_ics text))) := by
              rw [normEol_eq_self _ hnr]
        _ = unfoldAux [] (unfold_ics text) := by
              rw [splitNl_joinNl (unfold_ics text) (by rw [hL]; simp) hnnl]
        _ = unfold_ics text := unfoldAux_id (unfold_ics text)
              (fun l hl => (hclean l hl).1) hcont
